import Mathlib

/-!
Verification development for the p2pim-core storage marketplace node.

This file gives a shallow embedding, in Lean 4, of the parts of the code base
that the checked claims are about:

* `cryptography.rs` — the chunked Keccak-256 Merkle tree (`RsMerkleTree` with
  its `append_data`, `root` and `proof` operations, and the free-standing
  `verify`), together with a model of the `rs_merkle` crate's layered tree
  shape, proof extraction and proof verification that those operations
  delegate to;
* `data.rs` — `parameters`, `store`, `proof` and `verify` of the on-disk
  blob store (the directory is modelled as an association list keyed by
  `(peer_id, nonce)`; file I/O is assumed to succeed);
* `lessor.rs` — the stateless ask-screening policy `proposal`;
* `persistence.rs` — the in-memory lease index with `rent_store` and
  `rent_update_chain` (the `HashMap` is modelled as an association list
  with unique keys);
* `reactor.rs` — `process_proposal_received` and the bound-check prefix of
  the operator `challenge` command (the lessor, peer-directory and on-chain
  collaborators are trait parameters of the reactor in the source and enter
  the model as explicit arguments holding their results);
* `p2p/mod.rs` — the order of listener registration versus message send in
  `challenge`, `retrieve` and `send_proposal`, modelled as action traces;
* `types.rs` — `Signature::serialize` / `Signature::deserialize`.

Bytes are modelled as `Nat` values (the byte invariant `< 256` is immaterial
to the statements proved), byte strings as `List Nat`, `U256` values as `Nat`
(the source converts them losslessly to arbitrary-precision integers before
arithmetic), and Rust panics as `none` / dedicated constructors. Keccak-256
is implemented in full and validated against the standard empty-string
digest below. Recursions that a proof needs to evaluate on concrete inputs
are written with an explicit fuel argument (structural recursion) so that
they reduce inside the kernel; the fuel chosen by each wrapper is provably
sufficient.
-/

namespace P2pim

/-! ## Keccak-256 (the `Keccak256` hasher used by `cryptography.rs`) -/

/-- Left-rotation of a 64-bit lane. -/
def rotl64 (x n : Nat) : Nat :=
  ((x <<< n) ||| (x >>> (64 - n))) % (2 ^ 64)

/-- Round constants of Keccak-f[1600]. -/
def keccakRC : List Nat :=
  [0x0000000000000001, 0x0000000000008082, 0x800000000000808a, 0x8000000080008000,
   0x000000000000808b, 0x0000000080000001, 0x8000000080008081, 0x8000000000008009,
   0x000000000000008a, 0x0000000000000088, 0x0000000080008009, 0x000000008000000a,
   0x000000008000808b, 0x800000000000008b, 0x8000000000008089, 0x8000000000008003,
   0x8000000000008002, 0x8000000000000080, 0x000000000000800a, 0x800000008000000a,
   0x8000000080008081, 0x8000000000008080, 0x0000000080000001, 0x8000000080008008]

/-- Rotation offsets, indexed by lane `x + 5 * y`, written row by row
(`y = 0` first). -/
def keccakRho : List Nat :=
  [0, 1, 62, 28, 27] ++ [36, 44, 6, 55, 20] ++ [3, 10, 43, 25, 39] ++
    [41, 45, 15, 21, 8] ++ [18, 2, 61, 56, 14]

/-- Theta step of Keccak-f[1600] on a 25-lane state. -/
def keccakTheta (s : List Nat) : List Nat :=
  let c := (List.range 5).map (fun x =>
    s.getD x 0 ^^^ s.getD (x + 5) 0 ^^^ s.getD (x + 10) 0 ^^^ s.getD (x + 15) 0 ^^^ s.getD (x + 20) 0)
  let d := (List.range 5).map (fun x => c.getD ((x + 4) % 5) 0 ^^^ rotl64 (c.getD ((x + 1) % 5) 0) 1)
  (List.range 25).map (fun i => s.getD i 0 ^^^ d.getD (i % 5) 0)

/-- Combined rho and pi steps: lane `(X, Y)` receives lane `(X + 3Y mod 5, X)` rotated. -/
def keccakRhoPi (s : List Nat) : List Nat :=
  (List.range 25).map (fun j =>
    let jx := j % 5
    let jy := j / 5
    let src := (jx + 3 * jy) % 5 + 5 * jx
    rotl64 (s.getD src 0) (keccakRho.getD src 0))

/-- Chi step. -/
def keccakChi (s : List Nat) : List Nat :=
  (List.range 25).map (fun j =>
    let jx := j % 5
    let jy := j / 5
    s.getD j 0 ^^^ ((s.getD ((jx + 1) % 5 + 5 * jy) 0 ^^^ 0xFFFFFFFFFFFFFFFF) &&& s.getD ((jx + 2) % 5 + 5 * jy) 0))

/-- One Keccak-f round (iota folds in the round constant). -/
def keccakRound (s : List Nat) (rc : Nat) : List Nat :=
  let s1 := keccakChi (keccakRhoPi (keccakTheta s))
  (s1.getD 0 0 ^^^ rc) :: s1.drop 1

/-- The full Keccak-f[1600] permutation. -/
def keccakF (s : List Nat) : List Nat :=
  keccakRC.foldl keccakRound s

/-- Fueled splitting of a byte string into chunks of `n` bytes (the last chunk
may be short). The fuel only serves structural termination; `data.length`
fuel is always sufficient for `1 ≤ n`. -/
def chunksOfGo (n : Nat) : Nat → List Nat → List (List Nat)
  | _, [] => []
  | 0, _ :: _ => []
  | fuel + 1, b :: bs => (b :: bs).take n :: chunksOfGo n fuel ((b :: bs).drop n)

/-- Split a byte string into chunks of `n` bytes, the last possibly short. -/
def chunksOf (n : Nat) (data : List Nat) : List (List Nat) :=
  chunksOfGo n data.length data

/-- Interpret up to eight bytes as a little-endian 64-bit lane. -/
def bytesToLane (bs : List Nat) : Nat :=
  bs.foldr (fun b acc => acc * 256 + b) 0

/-- Little-endian bytes of a 64-bit lane. -/
def laneToBytes (x : Nat) : List Nat :=
  (List.range 8).map (fun k => x / 256 ^ k % 256)

/-- Keccak (legacy, pre-SHA-3) multi-rate padding for rate 136. -/
def keccakPad (len : Nat) : List Nat :=
  let padLen := 136 - len % 136
  if padLen = 1 then [0x81] else 0x01 :: (List.replicate (padLen - 2) 0 ++ [0x80])

/-- Absorb one 136-byte block into the sponge state. -/
def absorbBlock (s : List Nat) (block : List Nat) : List Nat :=
  let lanes := (chunksOf 8 block).map bytesToLane
  keccakF ((List.range 25).map (fun i => s.getD i 0 ^^^ lanes.getD i 0))

/-- Keccak-256 of a byte string, as computed by the `Keccak256` digest the
source code uses for every leaf and every inner node. -/
def keccak256 (msg : List Nat) : List Nat :=
  let padded := msg ++ keccakPad msg.length
  let final := (chunksOf 136 padded).foldl absorbBlock (List.replicate 25 0)
  ((final.take 4).map laneToBytes).flatten

/-! ## The `rs_merkle` layered tree shape

`cryptography.rs` delegates tree layering, proof extraction and proof
verification to the `rs_merkle` crate (the spec fixes the shape as
"rs_merkle-style layering": Keccak-256 of `left ++ right` for a full pair,
an unpaired last node promoted unchanged, proofs listing the sibling hashes
from leaf to root). The functions below model that crate, parameterised by
the hash function exactly as the crate is parameterised by its `Hasher`. -/

/-- One parent layer: hash full pairs, promote an unpaired last node. -/
def parentLayer (hash : List Nat → List Nat) : List (List Nat) → List (List Nat)
  | [] => []
  | [x] => [x]
  | x :: y :: rest => hash (x ++ y) :: parentLayer hash rest

/-- Fueled bottom-up root of a leaf layer: `none` on an empty layer (the
source's `uncommitted_root()` returns `None` there, and the caller panics). -/
def rootGo (hash : List Nat → List Nat) : Nat → List (List Nat) → Option (List Nat)
  | _, [] => none
  | _, [x] => some x
  | 0, _ :: _ :: _ => none
  | fuel + 1, x :: y :: rest => rootGo hash fuel (parentLayer hash (x :: y :: rest))

/-- The `uncommitted_root` of a leaf list. -/
def uncommittedRoot (hash : List Nat → List Nat) (leaves : List (List Nat)) : Option (List Nat) :=
  rootGo hash leaves.length leaves

/-- Fueled layer stack of a committed tree, from the leaf layer up to and
including the single-node root layer. -/
def buildLayersGo (hash : List Nat → List Nat) : Nat → List (List Nat) → List (List (List Nat))
  | 0, current => [current]
  | fuel + 1, current =>
      if current.length ≤ 1 then [current]
      else current :: buildLayersGo hash fuel (parentLayer hash current)

/-- Layers of the committed tree; an empty tree has no layers. -/
def commitLayers (hash : List Nat → List Nat) (leaves : List (List Nat)) : List (List (List Nat)) :=
  if leaves = [] then [] else buildLayersGo hash leaves.length leaves

/-- The sibling of node `i` inside a layer. -/
def siblingIndex (i : Nat) : Nat :=
  if i % 2 = 0 then i + 1 else i - 1

/-- Helper (proof) hashes for leaf index `i`: walking up the layer stack,
collect the sibling when it exists in the layer. -/
def proofFromLayers (i : Nat) : List (List (List Nat)) → List (List Nat)
  | [] => []
  | layer :: rest =>
      (if siblingIndex i < layer.length then [layer.getD (siblingIndex i) []] else [])
        ++ proofFromLayers (i / 2) rest

/-- Fueled tree depth: the number of ceiling-halvings taking `n` nodes down
to one node (`rs_merkle`'s `tree_depth`, zero for at most one leaf). -/
def treeDepthGo : Nat → Nat → Nat
  | 0, _ => 0
  | fuel + 1, n => if n ≤ 1 then 0 else treeDepthGo fuel ((n + 1) / 2) + 1

/-- Tree depth of an `n`-leaf tree. -/
def treeDepth (n : Nat) : Nat :=
  treeDepthGo n n

/-- The root recomputed by `rs_merkle`'s `MerkleProof` from one leaf hash, the
leaf index, the proof hashes and the total leaf count: at each of `depth`
layers, consume the next proof hash when the sibling index is in range
(hashing in index order), otherwise promote; `none` when the proof runs out
of hashes (the crate's not-enough-helper-nodes error, which `verify` turns
into `false`). -/
def verifyGo (hash : List Nat → List Nat) :
    Nat → Nat → Nat → List Nat → List (List Nat) → Option (List Nat)
  | 0, _, _, h, _ => some h
  | depth + 1, count, i, h, proofHashes =>
      if siblingIndex i < count then
        match proofHashes with
        | [] => none
        | p :: rest =>
            verifyGo hash depth ((count + 1) / 2) (i / 2)
              (if i % 2 = 0 then hash (h ++ p) else hash (p ++ h)) rest
      else
        verifyGo hash depth ((count + 1) / 2) (i / 2) h proofHashes

/-! ## `cryptography.rs` -/

/-- BLOCK_SIZE_BYTES from `cryptography.rs`. -/
def BLOCK_SIZE_BYTES : Nat := 544

/-- The mutable state of `RsMerkleTree`: the uncommitted leaf hashes inserted
into the inner `rs_merkle` tree, the bytes absorbed into the running digest
since its last reset, and the `current_bytes` counter. -/
structure RsMerkleTree where
  leaves : List (List Nat)
  digest : List Nat
  currentBytes : Nat
deriving DecidableEq

/-- A fresh tree, from `new_merkle_tree`. -/
def newMerkleTree : RsMerkleTree :=
  { leaves := [], digest := [], currentBytes := 0 }

/-- The loop body of `append_data`, with fuel for structural termination
(`current.length` fuel is always sufficient since `remaining ≥ 1` at every
call site). Each iteration splits off `min remaining current.len` bytes,
absorbs them into the digest, and — whenever `current_bytes % 544 == 0` —
finalises the digest into a new leaf and resets it. `current_bytes` is never
updated anywhere in the source, so it stays at its initial value. A
`remaining` of zero would make the source loop forever; the model returns the
state unchanged in that unreachable case. -/
def appendLoopGo (hash : List Nat → List Nat) (remaining : Nat) :
    Nat → RsMerkleTree → List Nat → RsMerkleTree
  | _, st, [] => st
  | 0, st, _ :: _ => st
  | fuel + 1, st, b :: bs =>
      if remaining = 0 then st
      else
        let current := b :: bs
        let k := min remaining current.length
        let left := current.take k
        let st1 : RsMerkleTree := { st with digest := st.digest ++ left }
        let st2 : RsMerkleTree :=
          if st.currentBytes % BLOCK_SIZE_BYTES = 0 then
            { st1 with leaves := st1.leaves ++ [hash st1.digest], digest := [] }
          else st1
        appendLoopGo hash remaining fuel st2 (current.drop k)

/-- `RsMerkleTree::append_data`: `remaining` is computed once, before the
loop, from the (never-updated) `current_bytes` counter. -/
def RsMerkleTree.appendData (hash : List Nat → List Nat) (st : RsMerkleTree) (data : List Nat) :
    RsMerkleTree :=
  appendLoopGo hash (BLOCK_SIZE_BYTES - st.currentBytes % BLOCK_SIZE_BYTES) data.length st data

/-- `RsMerkleTree::root`: if `current_bytes & 544` (a bitwise AND in the
source) is non-zero, flush the pending digest as a final leaf, then take the
inner tree's `uncommitted_root`; the source calls `.expect(...)` on that
option, so `none` models the panic on an empty tree. -/
def RsMerkleTree.root (hash : List Nat → List Nat) (st : RsMerkleTree) : Option (List Nat) :=
  let st1 :=
    if st.currentBytes &&& BLOCK_SIZE_BYTES ≠ 0 then
      { st with leaves := st.leaves ++ [hash st.digest] }
    else st
  uncommittedRoot hash st1.leaves

/-- `RsMerkleTree::proof`: same conditional flush as `root`, then commit a
clone of the inner tree and extract the proof hashes for the leaf index. -/
def RsMerkleTree.proof (hash : List Nat → List Nat) (st : RsMerkleTree) (leafIndex : Nat) :
    List (List Nat) :=
  let st1 :=
    if st.currentBytes &&& BLOCK_SIZE_BYTES ≠ 0 then
      { st with leaves := st.leaves ++ [hash st.digest] }
    else st
  proofFromLayers leafIndex (commitLayers hash st1.leaves)

/-- The leaf count `total_size / BLOCK_SIZE_BYTES + (if total_size %
BLOCK_SIZE_BYTES == 0 { 0 } else { 1 })` computed inside `verify`. -/
def totalLeavesCount (totalSize : Nat) : Nat :=
  totalSize / BLOCK_SIZE_BYTES + (if totalSize % BLOCK_SIZE_BYTES = 0 then 0 else 1)

/-- `Implementation::verify` from `cryptography.rs`: hash the block into a
leaf hash and check the recomputed root against `merkle_root`. -/
def cryptographyVerify (hash : List Nat → List Nat) (leafIndex : Nat) (blockData : List Nat)
    (proofHashes : List (List Nat)) (merkleRoot : List Nat) (totalSize : Nat) : Bool :=
  decide (verifyGo hash (treeDepth (totalLeavesCount totalSize)) (totalLeavesCount totalSize)
    leafIndex (hash blockData) proofHashes = some merkleRoot)

/-! ## `types.rs` -/

/-- A `std::time::Duration`: seconds and nanoseconds (`nanos < 10^9`),
compared lexicographically. -/
structure Duration where
  secs : Nat
  nanos : Nat
deriving DecidableEq

/-- Strict order on durations. -/
def durLt (a b : Duration) : Bool :=
  a.secs < b.secs || (a.secs == b.secs && a.nanos < b.nanos)

/-- Non-strict order on durations. -/
def durLe (a b : Duration) : Bool :=
  !(durLt b a)

/-- Rust `Range::contains`: `start ≤ d ∧ d < end`. -/
def durContains (rangeStart rangeEnd d : Duration) : Bool :=
  durLe rangeStart d && durLt d rangeEnd

/-- `types::Signature`, wrapping the `(r, s, v)` triple; `r` and `s` are
`H256` values (32 bytes each), `v` is a `u64`. -/
structure Signature where
  r : List Nat
  s : List Nat
  v : Nat
deriving DecidableEq

/-- `Signature::serialize`: `r`, then `s`, then `v as u8` (truncation modulo
256). -/
def Signature.serialize (sig : Signature) : List Nat :=
  sig.r ++ sig.s ++ [sig.v % 256]

/-- `Signature::deserialize`: reject any input whose length is not 65,
otherwise split it as `r = buf[0..32]`, `s = buf[32..64]`, `v = buf[64]`. -/
def Signature.deserialize (buf : List Nat) : Except String Signature :=
  if buf.length ≠ 65 then .error "incorrect input length"
  else .ok { r := buf.take 32, s := (buf.drop 32).take 32, v := buf.getD 64 0 }

/-- `types::DataParameters`. -/
structure DataParameters where
  merkleRoot : List Nat
  size : Nat
deriving DecidableEq

/-- `types::LeaseTerms` (addresses and `U256` amounts as `Nat`,
`proposal_expiration` as unix seconds). -/
structure LeaseTerms where
  tokenAddress : Nat
  price : Nat
  penalty : Nat
  proposalExpiration : Nat
  leaseDuration : Duration
deriving DecidableEq

/-- `types::ChainConfirmation`. -/
structure ChainConfirmation where
  transactionHash : Nat
  timestamp : Nat
deriving DecidableEq

/-- `types::ChallengeKey`. -/
structure ChallengeKey where
  nonce : Nat
  blockNumber : Nat
deriving DecidableEq

/-- `p2p::p2pim::LeaseProposal`, the incoming proposal message. -/
structure LeaseProposal where
  nonce : Nat
  leaseTerms : LeaseTerms
  signature : Signature
  data : List Nat
deriving DecidableEq

/-- `types::Lease`. -/
structure Lease where
  peerId : Nat
  peerAddress : Nat
  nonce : Nat
  terms : LeaseTerms
  dataParameters : DataParameters
  chainConfirmation : Option ChainConfirmation
deriving DecidableEq

/-! ## `data.rs`

The blob directory `<root>/<peer_id>/<nonce>` is modelled as an association
list from `(peer_id, nonce)` to the file bytes; directory creation and file
I/O are assumed to succeed (their failures are environmental I/O errors
outside the model). `proof` takes the stored file's bytes directly. -/

/-- `Implementation::parameters` from `data.rs`: build a fresh tree, append
the whole input once, and take the root. The root call panics (`none`) on an
empty tree. -/
def dataParameters (hash : List Nat → List Nat) (data : List Nat) : Option DataParameters :=
  (RsMerkleTree.root hash (RsMerkleTree.appendData hash newMerkleTree data)).map
    (fun r => { merkleRoot := r, size := data.length })

/-- The on-disk blob directory keyed by `(peer_id, nonce)`. -/
abbrev DataStore : Type :=
  List ((Nat × Nat) × List Nat)

/-- Read the blob stored under a key, if any. -/
def storeLookup (s : DataStore) (k : Nat × Nat) : Option (List Nat) :=
  (s.find? (fun e => e.1 == k)).map (fun e => e.2)

/-- `tokio::fs::write`: create the file, or truncate and overwrite an
existing one. -/
def storeWrite : DataStore → Nat × Nat → List Nat → DataStore
  | [], k, v => [(k, v)]
  | e :: rest, k, v => if e.1 = k then (k, v) :: rest else e :: storeWrite rest k v

/-- `Implementation::store` from `data.rs`: compute the parameters, then
write the file. There is no check whether the `(peer_id, nonce)` file already
exists; `fs::write` overwrites it. `none` models the panic inside
`parameters` on empty data. -/
def dataStoreOp (hash : List Nat → List Nat) (s : DataStore) (peerId nonce : Nat)
    (data : List Nat) : Option (DataParameters × DataStore) :=
  (dataParameters hash data).map (fun p => (p, storeWrite s (peerId, nonce) data))

/-- `Implementation::proof` from `data.rs`, applied to the stored file's
bytes: `ensure!(data.len() >= block_start)` (error only when the start
exceeds the length), slice the block clipped to the file length, then rebuild
the tree and extract the proof. -/
def dataProofOp (hash : List Nat → List Nat) (fileData : List Nat) (blockNumber : Nat) :
    Except String (List Nat × List (List Nat)) :=
  let blockStart := blockNumber * BLOCK_SIZE_BYTES
  if fileData.length < blockStart then .error "block is out of bounds"
  else
    let blockEnd := min (blockStart + BLOCK_SIZE_BYTES) fileData.length
    let blockData := (fileData.drop blockStart).take (blockEnd - blockStart)
    .ok (blockData,
      RsMerkleTree.proof hash (RsMerkleTree.appendData hash newMerkleTree fileData) blockNumber)

/-- `Implementation::verify` from `data.rs`: thin wrapper over the
cryptography service's `verify` (the 32-byte copy of the stored root is the
identity here since all roots in the model are 32 bytes). -/
def dataVerify (hash : List Nat → List Nat) (params : DataParameters) (blockNumber : Nat)
    (blockData : List Nat) (proofHashes : List (List Nat)) : Bool :=
  cryptographyVerify hash blockNumber blockData proofHashes params.merkleRoot params.size

/-! ## `lessor.rs` -/

/-- `lessor::RejectedReason`. -/
inductive RejectedReason
  | tokenNotAccepted
  | durationTooShort
  | durationTooLong
  | sizeTooSmall
  | sizeTooBig
  | totalTokensTooSmall
  | priceRateTooSmall
  | penaltyRateTooHigh
deriving DecidableEq

/-- `lessor::Ask`. The `max_penalty_rate: f32` field drives only the final
floating-point penalty check, which is outside this model (see
`LessorOutcome.toPenaltyCheck`), so it is not carried here. -/
structure Ask where
  durationStart : Duration
  durationEnd : Duration
  sizeStart : Nat
  sizeEnd : Nat
  minTokensTotal : Nat
  minTokensGbHour : Nat
deriving DecidableEq

/-- Outcome of the checks of `Implementation::proposal` from `lessor.rs` up
to and including the price-rate check. `toPenaltyCheck` means checks 1–5
passed and control reaches the final floating-point penalty-rate check
(`penalty.to_f32() / price.to_f32()` against `max_penalty_rate`), which is
not modelled; `panicked` models the two arithmetic panics on this path
(`BigInt` division by a zero `duration_secs`, and
`U256::from_little_endian` on a quotient of 33 bytes or more). -/
inductive LessorOutcome
  | rejected (reason : RejectedReason)
  | toPenaltyCheck
  | panicked
deriving DecidableEq

/-- `Implementation::proposal` from `lessor.rs` (checks 1–5). The rate is
computed exactly as in the source, where
`price * 3600 * 2^30 / duration_secs * size` parses as
`((price * 3600 * 2^30) / duration_secs) * size`. -/
def lessorProposal (tokenAsk : List (Nat × Ask)) (terms : LeaseTerms) (size : Nat) :
    LessorOutcome :=
  match tokenAsk.find? (fun e => e.1 == terms.tokenAddress) with
  | none => .rejected .tokenNotAccepted
  | some (_, ask) =>
    if !durContains ask.durationStart ask.durationEnd terms.leaseDuration then
      if durLt terms.leaseDuration ask.durationStart then .rejected .durationTooShort
      else .rejected .durationTooLong
    else if !(ask.sizeStart ≤ size && size < ask.sizeEnd) then
      if size < ask.sizeStart then .rejected .sizeTooSmall
      else .rejected .sizeTooBig
    else if terms.price < ask.minTokensTotal then .rejected .totalTokensTooSmall
    else if terms.leaseDuration.secs = 0 then .panicked
    else
      let tokensGbHour :=
        terms.price * 3600 * (1024 * 1024 * 1024) / terms.leaseDuration.secs * size
      if 2 ^ 256 ≤ tokensGbHour then .panicked
      else if tokensGbHour < ask.minTokensGbHour then .rejected .priceRateTooSmall
      else .toPenaltyCheck

/-- The rate the specification prescribes for check 5:
`price * 3600 * 2^30 / (duration_secs * size)`. -/
def specPricePerGbHour (price durationSecs size : Nat) : Nat :=
  price * 3600 * (1024 * 1024 * 1024) / (durationSecs * size)

/-! ## `persistence.rs`

The `HashMap<Key, Lease>` is modelled as an association list whose keys are
unique (`HashMap` never holds two entries with one key); insertion with an
existing key replaces the value in place, which preserves every observation
a `HashMap` offers. -/

/-- `persistence::Key`. -/
structure PersistKey where
  peerId : Nat
  nonce : Nat
deriving DecidableEq

/-- The `leases_rent` map. -/
abbrev Persistence : Type :=
  List (PersistKey × Lease)

/-- `HashMap::insert`: replace the entry with this key, or add one. -/
def insertLease : Persistence → PersistKey → Lease → Persistence
  | [], k, v => [(k, v)]
  | e :: rest, k, v => if e.1 = k then (k, v) :: rest else e :: insertLease rest k v

/-- `HashMap::get` by key. -/
def lookupLease (p : Persistence) (k : PersistKey) : Option Lease :=
  (p.find? (fun e => e.1 == k)).map (fun e => e.2)

/-- `rent_store` from `persistence.rs`: insert under `(peer_id, nonce)`,
overwriting any prior entry. -/
def rentStore (p : Persistence) (lease : Lease) : Persistence :=
  insertLease p { peerId := lease.peerId, nonce := lease.nonce } lease

/-- The predicate of the linear scan inside `rent_update_chain`. -/
def leaseMatches (peerAddress nonce : Nat) (e : PersistKey × Lease) : Bool :=
  e.2.peerAddress == peerAddress && e.2.nonce == nonce

/-- `persistence::UpdateError`. -/
inductive UpdateError
  | leaseNotFound
deriving DecidableEq

/-- `rent_update_chain` from `persistence.rs`: scan for the first lease with
matching `(peer_address, nonce)`; if none, `LeaseNotFound`; otherwise clone
it, set its `chain_confirmation`, and insert it back under its own key. -/
def rentUpdateChain (p : Persistence) (peerAddress nonce : Nat)
    (cc : Option ChainConfirmation) : Except UpdateError Persistence :=
  match p.find? (leaseMatches peerAddress nonce) with
  | none => .error .leaseNotFound
  | some e => .ok (insertLease p e.1 { e.2 with chainConfirmation := cc })

/-- Number of stored leases matching `(peer_address, nonce)`. -/
def countMatches (p : Persistence) (peerAddress nonce : Nat) : Nat :=
  (p.filter (leaseMatches peerAddress nonce)).length

/-- Modelled from the spec: `rent_get(peer_id, nonce) → Lease?`, the
read-only query by `(peer_id, nonce)` key (§4.3). The reactor calls this
trait method but `persistence.rs` in the snapshot only carries `rent_store`,
`rent_update_chain` and `rent_list`. -/
def rentGet (p : Persistence) (peerId nonce : Nat) : Option Lease :=
  lookupLease p { peerId := peerId, nonce := nonce }

/-! ## `reactor.rs`

The reactor is generic over its collaborator services (`TLessor`,
`TOnchain`, `TP2p`); their call results enter the model as explicit
arguments. The data store is the concrete `data.rs` model above. -/

/-- `reactor::ProcessProposalError` (the payloads of the error cases are not
needed by any statement). -/
inductive ProcessProposalError
  | rejected (reason : RejectedReason)
  | onchainError
  | dataError
deriving DecidableEq

/-- `Implementation::process_proposal_received` from `reactor.rs`:
1. consult the lessor policy, rejecting on error;
2. resolve the lessee address from the peer directory — the source calls
   `.expect("peer id should be identified already")`, so an unknown peer is
   a panic (`none`);
3. store the blob (the `TODO check if the nonce is duplicated` in the source
   is not implemented: no duplicate check happens here);
4. submit `seal_lease`; a failure is propagated with `?` — the stored blob
   is left in place.
The result pairs the command outcome with the data store left behind. -/
def processProposalReceived (hash : List Nat → List Nat)
    (lessorResult : Except RejectedReason Unit) (lesseeAddress : Option Nat)
    (sealResult : Except Unit Nat) (store : DataStore) (peerId : Nat)
    (prop : LeaseProposal) : Option (Except ProcessProposalError Nat × DataStore) :=
  match lessorResult with
  | .error reason => some (.error (.rejected reason), store)
  | .ok _ =>
    match lesseeAddress with
    | none => none
    | some _ =>
      match dataStoreOp hash store peerId prop.nonce prop.data with
      | none => none
      | some (_, store2) =>
        match sealResult with
        | .error _ => some (.error .onchainError, store2)
        | .ok tx => some (.ok tx, store2)

/-- Outcome of the prefix of the operator `challenge` command in
`reactor.rs` that runs before any message is sent. -/
inductive ChallengeGate
  | failedLeaseNotFound
  | failedOutOfBounds
  | proceeds
deriving DecidableEq

/-- The lease lookup and block-bound check opening `Implementation::challenge`
in `reactor.rs`: fail when the lease is absent; fail with "block number is
out of bounds" when `lease.data_parameters.size < block_number *
BLOCK_SIZE_BYTES`; otherwise proceed to send the challenge request. -/
def reactorChallengeGate (pers : Persistence) (peerId : Nat) (key : ChallengeKey) :
    ChallengeGate :=
  match rentGet pers peerId key.nonce with
  | none => .failedLeaseNotFound
  | some lease =>
    if lease.dataParameters.size < key.blockNumber * BLOCK_SIZE_BYTES then .failedOutOfBounds
    else .proceeds

/-! ## `p2p/mod.rs` as action traces

Each request/response helper of the p2p service is straight-line code; its
body is modelled as the sequence of primitive effects it performs, in program
order: registering a one-shot listener, handing a message to the swarm, and
awaiting the listener. -/

/-- The three `OneshotListerners` tables of `p2p::Implementation`. -/
inductive ListenerTable
  | challenges
  | retrieves
  | proposals
deriving DecidableEq

/-- Keys of the listener tables: `(peer_id, ChallengeKey)` for proofs,
`(peer_id, nonce)` for retrievals and proposal rejections. -/
inductive ListenerKey
  | challengeKey (peerId : Nat) (key : ChallengeKey)
  | nonceKey (peerId : Nat) (nonce : Nat)
deriving DecidableEq

/-- Primitive effects of the p2p request/response helpers. -/
inductive P2pAction
  | newListener (table : ListenerTable) (key : ListenerKey)
  | sendChallengeMsg (peerId : Nat) (key : ChallengeKey)
  | sendProposalMsg (peerId : Nat) (prop : LeaseProposal)
  | sendRetrieveRequestMsg (peerId : Nat) (nonce : Nat)
  | awaitListener (table : ListenerTable) (key : ListenerKey)
deriving DecidableEq

/-- `Implementation::challenge` from `p2p/mod.rs`, as its effect trace:
`new_listener` on `pending_challenges`, then `send_challenge`, then await. -/
def p2pChallengeActions (peerId : Nat) (key : ChallengeKey) : List P2pAction :=
  [.newListener .challenges (.challengeKey peerId key),
   .sendChallengeMsg peerId key,
   .awaitListener .challenges (.challengeKey peerId key)]

/-- `Implementation::send_proposal` from `p2p/mod.rs`, as its effect trace:
`new_listener` on `pending_proposals` keyed by `(peer, nonce)`, then
`send_proposal`, then await the rejection reason. -/
def p2pSendProposalActions (peerId : Nat) (prop : LeaseProposal) : List P2pAction :=
  [.newListener .proposals (.nonceKey peerId prop.nonce),
   .sendProposalMsg peerId prop,
   .awaitListener .proposals (.nonceKey peerId prop.nonce)]

/-- `Implementation::retrieve` from `p2p/mod.rs`, as its effect trace. -/
def p2pRetrieveActions (peerId nonce : Nat) : List P2pAction :=
  [.newListener .retrieves (.nonceKey peerId nonce),
   .sendRetrieveRequestMsg peerId nonce,
   .awaitListener .retrieves (.nonceKey peerId nonce)]

/-- The table and key of the one-shot listener that an outbound message's
response will be routed to (from the `poll_next` dispatch), for the three
request messages that expect a response. -/
def expectsResponse : P2pAction → Option (ListenerTable × ListenerKey)
  | .sendChallengeMsg p k => some (.challenges, .challengeKey p k)
  | .sendProposalMsg p pr => some (.proposals, .nonceKey p pr.nonce)
  | .sendRetrieveRequestMsg p n => some (.retrieves, .nonceKey p n)
  | _ => none

/-- Walking a trace with the set of listener registrations seen so far:
every send that expects a response must find its `(table, key)` among the
registrations made strictly earlier in the trace. -/
def listenersPrecedeSendsFrom (registered : List (ListenerTable × ListenerKey)) :
    List P2pAction → Prop
  | [] => True
  | a :: rest =>
      (∀ tk, expectsResponse a = some tk → tk ∈ registered) ∧
      listenersPrecedeSendsFrom
        (registered ++ (match a with | .newListener t k => [(t, k)] | _ => []))
        rest

/-- A trace in which every response-expecting send is preceded by a matching
one-shot listener registration. -/
def listenersPrecedeSends (tr : List P2pAction) : Prop :=
  listenersPrecedeSendsFrom [] tr

/-! ## Concrete inputs used by counterexamples and witnesses -/

/-- An ask accepting leases of one to two hours, 1 byte to 4 GiB, at least
one token in total and at least one token per GiB-hour. -/
def askC1 : Ask :=
  { durationStart := { secs := 3600, nanos := 0 }, durationEnd := { secs := 7200, nanos := 0 },
    sizeStart := 1, sizeEnd := 2 ^ 32, minTokensTotal := 1, minTokensGbHour := 1 }

/-- A proposal for token 5: 2 GiB for one hour at a total price of one token. -/
def termsC1 : LeaseTerms :=
  { tokenAddress := 5, price := 1, penalty := 0, proposalExpiration := 0,
    leaseDuration := { secs := 3600, nanos := 0 } }

/-- An all-zero 65-byte signature value. -/
def sigZero : Signature :=
  { r := List.replicate 32 0, s := List.replicate 32 0, v := 27 }

/-- An incoming proposal with nonce 5 and a one-byte payload `[8]`. -/
def propC2 : LeaseProposal :=
  { nonce := 5, leaseTerms := termsC1, signature := sigZero, data := [8] }

/-- An incoming proposal with nonce 6 and a one-byte payload `[9]`. -/
def propC5 : LeaseProposal :=
  { nonce := 6, leaseTerms := termsC1, signature := sigZero, data := [9] }

/-- A stored lease over exactly one full 544-byte block. -/
def leaseC6 : Lease :=
  { peerId := 1, peerAddress := 10, nonce := 5, terms := termsC1,
    dataParameters := { merkleRoot := List.replicate 32 0, size := 544 },
    chainConfirmation := none }

/-- A persistence state holding only `leaseC6` under `(peer 1, nonce 5)`. -/
def persC6 : Persistence :=
  [({ peerId := 1, nonce := 5 }, leaseC6)]

/-- A lease stored by peer 2 under nonce 4 with on-chain address 11. -/
def leaseC8 : Lease :=
  { peerId := 2, peerAddress := 11, nonce := 4, terms := termsC1,
    dataParameters := { merkleRoot := List.replicate 32 0, size := 1 },
    chainConfirmation := none }

/-- A persistence state holding only `leaseC8`. -/
def persC8 : Persistence :=
  [({ peerId := 2, nonce := 4 }, leaseC8)]

/-- A signature with distinguishable `r`, `s` and a `v` below 256. -/
def sigC10 : Signature :=
  { r := List.replicate 32 1, s := List.replicate 32 2, v := 27 }

/-! ## Facts about the chunking loop -/

theorem take_min_length (a : Nat) (xs : List Nat) : xs.take (min a xs.length) = xs.take a := by
  rcases Nat.le_total a xs.length with h | h
  · rw [Nat.min_eq_left h]
  · rw [Nat.min_eq_right h, List.take_of_length_le (Nat.le_refl _), List.take_of_length_le h]

theorem drop_min_length (a : Nat) (xs : List Nat) : xs.drop (min a xs.length) = xs.drop a := by
  rcases Nat.le_total a xs.length with h | h
  · rw [Nat.min_eq_left h]
  · rw [Nat.min_eq_right h, List.drop_of_length_le (Nat.le_refl _), List.drop_of_length_le h]

theorem chunksOfGo_fuel (n : Nat) (hn : 1 ≤ n) :
    ∀ (fuel fuel2 : Nat) (data : List Nat), data.length ≤ fuel → data.length ≤ fuel2 →
      chunksOfGo n fuel data = chunksOfGo n fuel2 data := by
  intro fuel
  induction fuel with
  | zero =>
    intro fuel2 data h1 _
    have hd : data = [] := List.length_eq_zero.mp (Nat.le_zero.mp h1)
    subst hd
    cases fuel2 <;> rfl
  | succ fuel ih =>
    intro fuel2 data h1 h2
    cases data with
    | nil => cases fuel2 <;> rfl
    | cons b bs =>
      cases fuel2 with
      | zero => simp at h2
      | succ fuel2 =>
        simp only [chunksOfGo]
        congr 1
        apply ih
        · rw [List.length_drop]
          simp only [List.length_cons] at h1 ⊢
          omega
        · rw [List.length_drop]
          simp only [List.length_cons] at h2 ⊢
          omega

theorem chunksOf_cons (n : Nat) (hn : 1 ≤ n) (b : Nat) (bs : List Nat) :
    chunksOf n (b :: bs) = (b :: bs).take n :: chunksOf n ((b :: bs).drop n) := by
  show chunksOfGo n (bs.length + 1) (b :: bs) = _
  simp only [chunksOfGo]
  congr 1
  apply chunksOfGo_fuel n hn
  · rw [List.length_drop]
    simp only [List.length_cons]
    omega
  · exact Nat.le_refl _

theorem chunksOf_length_fueled :
    ∀ (fuel : Nat) (data : List Nat), data.length ≤ fuel →
      (chunksOf 544 data).length = totalLeavesCount data.length := by
  intro fuel
  induction fuel with
  | zero =>
    intro data h
    have hd : data = [] := List.length_eq_zero.mp (Nat.le_zero.mp h)
    subst hd
    rfl
  | succ fuel ih =>
    intro data h
    cases data with
    | nil => rfl
    | cons b bs =>
      rw [chunksOf_cons 544 (by omega)]
      simp only [List.length_cons]
      rw [ih ((b :: bs).drop 544) (by rw [List.length_drop]; simp only [List.length_cons] at h ⊢; omega)]
      rw [List.length_drop]
      simp only [totalLeavesCount, BLOCK_SIZE_BYTES, List.length_cons]
      split_ifs <;> omega

theorem chunksOf_length (data : List Nat) :
    (chunksOf 544 data).length = totalLeavesCount data.length :=
  chunksOf_length_fueled data.length data (Nat.le_refl _)

theorem chunksOf_getD_fueled :
    ∀ (fuel : Nat) (data : List Nat) (i : Nat), data.length ≤ fuel →
      i < (chunksOf 544 data).length →
      (chunksOf 544 data).getD i [] = (data.drop (i * 544)).take 544 := by
  intro fuel
  induction fuel with
  | zero =>
    intro data i h hi
    have hd : data = [] := List.length_eq_zero.mp (Nat.le_zero.mp h)
    subst hd
    simp [chunksOf, chunksOfGo] at hi
  | succ fuel ih =>
    intro data i h hi
    cases data with
    | nil => simp [chunksOf, chunksOfGo] at hi
    | cons b bs =>
      rw [chunksOf_cons 544 (by omega)] at hi ⊢
      cases i with
      | zero => simp
      | succ i =>
        rw [List.getD_cons_succ]
        rw [ih ((b :: bs).drop 544) i
          (by rw [List.length_drop]; simp only [List.length_cons] at h ⊢; omega)
          (by simpa using hi)]
        rw [List.drop_drop]
        have harith : 544 + i * 544 = (i + 1) * 544 := by ring
        rw [harith]

theorem chunksOf_getD (data : List Nat) (i : Nat) (hi : i < (chunksOf 544 data).length) :
    (chunksOf 544 data).getD i [] = (data.drop (i * 544)).take 544 :=
  chunksOf_getD_fueled data.length data i (Nat.le_refl _) hi

/-! ## The effect of `append_data`

`current_bytes` is never incremented anywhere in the source, so `remaining`
is always 544 and the `current_bytes % 544 == 0` test inside the loop is
always true: every chunk the loop splits off — including a short final one —
is immediately finalised into its own leaf, and the digest is empty again
after every call. Starting from the all-zero state, appending `data` appends
exactly the hashes of the 544-byte chunks of `data` to the leaf list. -/

theorem appendLoopGo_fresh (hash : List Nat → List Nat) :
    ∀ (fuel : Nat) (data : List Nat) (ls : List (List Nat)), data.length ≤ fuel →
      appendLoopGo hash 544 fuel { leaves := ls, digest := [], currentBytes := 0 } data =
        { leaves := ls ++ (chunksOf 544 data).map hash, digest := [], currentBytes := 0 } := by
  intro fuel
  induction fuel with
  | zero =>
    intro data ls h
    have hd : data = [] := List.length_eq_zero.mp (Nat.le_zero.mp h)
    subst hd
    simp [appendLoopGo, chunksOf, chunksOfGo]
  | succ fuel ih =>
    intro data ls h
    cases data with
    | nil => simp [appendLoopGo, chunksOf, chunksOfGo]
    | cons b bs =>
      show appendLoopGo hash 544 (fuel + 1) _ (b :: bs) = _
      rw [appendLoopGo]
      rw [if_neg (by omega)]
      simp only [BLOCK_SIZE_BYTES, Nat.zero_mod, if_pos rfl, if_true, List.nil_append]
      rw [take_min_length, drop_min_length]
      rw [ih ((b :: bs).drop 544) (ls ++ [hash ((b :: bs).take 544)])
        (by rw [List.length_drop]; simp only [List.length_cons] at h ⊢; omega)]
      rw [chunksOf_cons 544 (by omega)]
      simp [List.append_assoc]

theorem appendData_zeroState (hash : List Nat → List Nat) (ls : List (List Nat))
    (data : List Nat) :
    RsMerkleTree.appendData hash { leaves := ls, digest := [], currentBytes := 0 } data =
      { leaves := ls ++ (chunksOf 544 data).map hash, digest := [], currentBytes := 0 } := by
  show appendLoopGo hash (BLOCK_SIZE_BYTES - 0 % BLOCK_SIZE_BYTES) data.length _ data = _
  have hrem : BLOCK_SIZE_BYTES - 0 % BLOCK_SIZE_BYTES = 544 := rfl
  rw [hrem]
  exact appendLoopGo_fresh hash data.length data ls (Nat.le_refl _)

theorem appendData_new (hash : List Nat → List Nat) (data : List Nat) :
    RsMerkleTree.appendData hash newMerkleTree data =
      { leaves := (chunksOf 544 data).map hash, digest := [], currentBytes := 0 } := by
  have h := appendData_zeroState hash [] data
  simpa [newMerkleTree] using h

theorem root_zeroState (hash : List Nat → List Nat) (ls : List (List Nat)) :
    RsMerkleTree.root hash { leaves := ls, digest := [], currentBytes := 0 } =
      uncommittedRoot hash ls := by
  simp [RsMerkleTree.root]

theorem proof_zeroState (hash : List Nat → List Nat) (ls : List (List Nat)) (i : Nat) :
    RsMerkleTree.proof hash { leaves := ls, digest := [], currentBytes := 0 } i =
      proofFromLayers i (commitLayers hash ls) := by
  simp [RsMerkleTree.proof]

/-! ## Facts about the layered tree -/

theorem parentLayer_length (hash : List Nat → List Nat) :
    ∀ L : List (List Nat), (parentLayer hash L).length = (L.length + 1) / 2
  | [] => by simp [parentLayer]
  | [x] => by simp [parentLayer]
  | x :: y :: rest => by
    simp only [parentLayer, List.length_cons, parentLayer_length hash rest]
    omega

theorem parentLayer_getD_pair (hash : List Nat → List Nat) :
    ∀ (L : List (List Nat)) (k : Nat), 2 * k + 1 < L.length →
      (parentLayer hash L).getD k [] = hash (L.getD (2 * k) [] ++ L.getD (2 * k + 1) [])
  | [], k, h => by simp at h
  | [x], k, h => by
    simp only [List.length_cons, List.length_nil] at h
    omega
  | x :: y :: rest, 0, h => by simp [parentLayer]
  | x :: y :: rest, k + 1, h => by
    have h2 : 2 * k + 1 < rest.length := by
      simp only [List.length_cons] at h
      omega
    have harith : 2 * (k + 1) = 2 * k + 1 + 1 := by ring
    simp only [parentLayer, List.getD_cons_succ, harith]
    exact parentLayer_getD_pair hash rest k h2

theorem parentLayer_getD_promote (hash : List Nat → List Nat) :
    ∀ (L : List (List Nat)) (k : Nat), 2 * k + 1 = L.length →
      (parentLayer hash L).getD k [] = L.getD (2 * k) []
  | [], k, h => by simp at h
  | [x], k, h => by
    have hk : k = 0 := by simp at h; omega
    subst hk
    simp [parentLayer]
  | x :: y :: rest, k, h => by
    have hk : 1 ≤ k := by
      simp only [List.length_cons] at h
      omega
    obtain ⟨k2, rfl⟩ : ∃ k2, k = k2 + 1 := ⟨k - 1, by omega⟩
    have h2 : 2 * k2 + 1 = rest.length := by
      simp only [List.length_cons] at h
      omega
    have harith : 2 * (k2 + 1) = 2 * k2 + 1 + 1 := by ring
    simp only [parentLayer, List.getD_cons_succ, harith]
    exact parentLayer_getD_promote hash rest k2 h2

theorem rootGo_fuel (hash : List Nat → List Nat) :
    ∀ (fuel fuel2 : Nat) (L : List (List Nat)), L.length ≤ fuel + 1 → L.length ≤ fuel2 + 1 →
      rootGo hash fuel L = rootGo hash fuel2 L := by
  intro fuel
  induction fuel with
  | zero =>
    intro fuel2 L h1 _
    cases L with
    | nil => cases fuel2 <;> rfl
    | cons x rest =>
      have hr : rest = [] := by
        simp only [List.length_cons] at h1
        exact List.length_eq_zero.mp (by omega)
      subst hr
      cases fuel2 <;> rfl
  | succ fuel ih =>
    intro fuel2 L h1 h2
    cases L with
    | nil => cases fuel2 <;> rfl
    | cons x rest =>
      cases rest with
      | nil => cases fuel2 <;> rfl
      | cons y rest2 =>
        have hf2 : 1 ≤ fuel2 := by
          simp only [List.length_cons] at h2
          omega
        obtain ⟨f2, rfl⟩ : ∃ f2, fuel2 = f2 + 1 := ⟨fuel2 - 1, by omega⟩
        show rootGo hash fuel (parentLayer hash (x :: y :: rest2)) =
          rootGo hash f2 (parentLayer hash (x :: y :: rest2))
        apply ih
        · rw [parentLayer_length]
          simp only [List.length_cons] at h1 ⊢
          omega
        · rw [parentLayer_length]
          simp only [List.length_cons] at h2 ⊢
          omega

theorem uncommittedRoot_parent (hash : List Nat → List Nat) (L : List (List Nat))
    (h : 2 ≤ L.length) :
    uncommittedRoot hash L = uncommittedRoot hash (parentLayer hash L) := by
  match L, h with
  | x :: y :: rest, _ =>
    show rootGo hash (rest.length + 1 + 1) (x :: y :: rest) = _
    rw [rootGo]
    apply rootGo_fuel
    · rw [parentLayer_length]
      simp only [List.length_cons]
      omega
    · exact Nat.le_succ _

theorem uncommittedRoot_isSome (hash : List Nat → List Nat) :
    ∀ (fuel : Nat) (L : List (List Nat)), L.length ≤ fuel → L ≠ [] →
      ∃ r, uncommittedRoot hash L = some r := by
  intro fuel
  induction fuel with
  | zero =>
    intro L h hne
    exact absurd (List.length_eq_zero.mp (Nat.le_zero.mp h)) hne
  | succ fuel ih =>
    intro L h hne
    match L with
    | [x] => exact ⟨x, rfl⟩
    | x :: y :: rest =>
      rw [uncommittedRoot_parent hash _ (by simp only [List.length_cons]; omega)]
      apply ih
      · rw [parentLayer_length]
        simp only [List.length_cons] at h ⊢
        omega
      · simp [parentLayer]

theorem treeDepthGo_fuel :
    ∀ (fuel fuel2 n : Nat), n ≤ fuel + 1 → n ≤ fuel2 + 1 →
      treeDepthGo fuel n = treeDepthGo fuel2 n := by
  intro fuel
  induction fuel with
  | zero =>
    intro fuel2 n h1 _
    have hn : n ≤ 1 := h1
    cases fuel2 with
    | zero => rfl
    | succ fuel2 => simp [treeDepthGo, hn]
  | succ fuel ih =>
    intro fuel2 n h1 h2
    by_cases hn : n ≤ 1
    · cases fuel2 with
      | zero => simp [treeDepthGo, hn]
      | succ fuel2 => simp [treeDepthGo, hn]
    · have hf2 : 1 ≤ fuel2 := by omega
      obtain ⟨f2, rfl⟩ : ∃ f2, fuel2 = f2 + 1 := ⟨fuel2 - 1, by omega⟩
      simp only [treeDepthGo, if_neg hn]
      congr 1
      exact ih f2 ((n + 1) / 2) (by omega) (by omega)

theorem treeDepth_step (n : Nat) (h : 2 ≤ n) :
    treeDepth n = treeDepth ((n + 1) / 2) + 1 := by
  obtain ⟨m, rfl⟩ : ∃ m, n = m + 1 := ⟨n - 1, by omega⟩
  show treeDepthGo (m + 1) (m + 1) = _
  rw [treeDepthGo, if_neg (by omega)]
  congr 1
  exact treeDepthGo_fuel m ((m + 1 + 1) / 2) ((m + 1 + 1) / 2) (by omega) (by omega)

theorem buildLayersGo_fuel (hash : List Nat → List Nat) :
    ∀ (fuel fuel2 : Nat) (L : List (List Nat)), L.length ≤ fuel + 1 → L.length ≤ fuel2 + 1 →
      buildLayersGo hash fuel L = buildLayersGo hash fuel2 L := by
  intro fuel
  induction fuel with
  | zero =>
    intro fuel2 L h1 _
    have hn : L.length ≤ 1 := h1
    cases fuel2 with
    | zero => rfl
    | succ fuel2 => simp [buildLayersGo, hn]
  | succ fuel ih =>
    intro fuel2 L h1 h2
    by_cases hn : L.length ≤ 1
    · cases fuel2 with
      | zero => simp [buildLayersGo, hn]
      | succ fuel2 => simp [buildLayersGo, hn]
    · have hf2 : 1 ≤ fuel2 := by omega
      obtain ⟨f2, rfl⟩ : ∃ f2, fuel2 = f2 + 1 := ⟨fuel2 - 1, by omega⟩
      simp only [buildLayersGo, if_neg hn]
      congr 1
      apply ih
      · rw [parentLayer_length]
        omega
      · rw [parentLayer_length]
        omega

theorem commitLayers_step (hash : List Nat → List Nat) (L : List (List Nat))
    (h : 2 ≤ L.length) :
    commitLayers hash L = L :: commitLayers hash (parentLayer hash L) := by
  match L, h with
  | x :: y :: rest, _ =>
    have hne : parentLayer hash (x :: y :: rest) ≠ [] := by simp [parentLayer]
    show buildLayersGo hash (rest.length + 1 + 1) (x :: y :: rest) = _
    rw [buildLayersGo, if_neg (by simp only [List.length_cons]; omega)]
    rw [commitLayers, if_neg hne]
    congr 1
    apply buildLayersGo_fuel
    · rw [parentLayer_length]
      simp only [List.length_cons]
      omega
    · exact Nat.le_succ _

theorem commitLayers_single (hash : List Nat → List Nat) (x : List Nat) :
    commitLayers hash [x] = [[x]] := by
  rw [commitLayers, if_neg (by simp)]
  rfl

/-! ## The Merkle round-trip -/

theorem verifyGo_promote (hash : List Nat → List Nat) (depth count i : Nat) (h : List Nat)
    (prf : List (List Nat)) (hsib : ¬ siblingIndex i < count) :
    verifyGo hash (depth + 1) count i h prf =
      verifyGo hash depth ((count + 1) / 2) (i / 2) h prf := by
  cases prf with
  | nil =>
    rw [verifyGo, if_neg hsib]
  | cons p rest =>
    rw [verifyGo, if_neg hsib]

theorem verify_roundtrip_layers (hash : List Nat → List Nat) :
    ∀ (fuel : Nat) (L : List (List Nat)) (i : Nat), L.length ≤ fuel → i < L.length →
      verifyGo hash (treeDepth L.length) L.length i (L.getD i [])
          (proofFromLayers i (commitLayers hash L)) =
        uncommittedRoot hash L := by
  intro fuel
  induction fuel with
  | zero =>
    intro L i h hi
    omega
  | succ fuel ih =>
    intro L i h hi
    by_cases hone : L.length ≤ 1
    · have hlen : L.length = 1 := by omega
      obtain ⟨x, rfl⟩ := List.length_eq_one.mp hlen
      have hi0 : i = 0 := by
        simpa using hi
      subst hi0
      rw [hlen, commitLayers_single]
      rfl
    · push_neg at hone
      have h2 : 2 ≤ L.length := hone
      have hplen : (parentLayer hash L).length = (L.length + 1) / 2 := parentLayer_length hash L
      rw [treeDepth_step L.length h2, commitLayers_step hash L h2]
      simp only [proofFromLayers]
      rw [uncommittedRoot_parent hash L h2]
      have hihyp := ih (parentLayer hash L) (i / 2)
        (by rw [hplen]; omega) (by rw [hplen]; omega)
      rw [hplen] at hihyp
      by_cases hsib : siblingIndex i < L.length
      · rw [if_pos hsib]
        show verifyGo hash (treeDepth ((L.length + 1) / 2) + 1) L.length i (L.getD i [])
          (L.getD (siblingIndex i) [] :: proofFromLayers (i / 2) (commitLayers hash (parentLayer hash L))) = _
        rw [verifyGo, if_pos hsib]
        have hcomb :
            (if i % 2 = 0 then hash (L.getD i [] ++ L.getD (siblingIndex i) [])
             else hash (L.getD (siblingIndex i) [] ++ L.getD i [])) =
            (parentLayer hash L).getD (i / 2) [] := by
          by_cases hpar : i % 2 = 0
          · rw [if_pos hpar]
            have hsibv : siblingIndex i = i + 1 := by
              simp [siblingIndex, hpar]
            have hki : 2 * (i / 2) = i := by omega
            have hki1 : 2 * (i / 2) + 1 = i + 1 := by omega
            rw [parentLayer_getD_pair hash L (i / 2) (by rw [hki1]; omega)]
            rw [hki1, hki, hsibv]
          · rw [if_neg hpar]
            have hsibv : siblingIndex i = i - 1 := by
              simp [siblingIndex, hpar]
            have hki : 2 * (i / 2) = i - 1 := by omega
            have hki1 : 2 * (i / 2) + 1 = i := by omega
            rw [parentLayer_getD_pair hash L (i / 2) (by rw [hki1]; omega)]
            rw [hki1, hki, hsibv]
        rw [hcomb]
        exact hihyp
      · rw [if_neg hsib]
        show verifyGo hash (treeDepth ((L.length + 1) / 2) + 1) L.length i (L.getD i [])
          (proofFromLayers (i / 2) (commitLayers hash (parentLayer hash L))) = _
        rw [verifyGo_promote hash _ _ _ _ _ hsib]
        have hpar : i % 2 = 0 := by
          by_contra hodd
          have hsibv : siblingIndex i = i - 1 := by
            simp [siblingIndex, hodd]
          omega
        have hlast : 2 * (i / 2) + 1 = L.length := by
          have hsibv : siblingIndex i = i + 1 := by
            simp [siblingIndex, hpar]
          omega
        rw [show L.getD i [] = (parentLayer hash L).getD (i / 2) [] by
          rw [parentLayer_getD_promote hash L (i / 2) hlast]
          congr 1
          omega]
        exact hihyp

theorem getD_map_hash (hash : List Nat → List Nat) (l : List (List Nat)) (i : Nat)
    (hi : i < l.length) : (l.map hash).getD i [] = hash (l.getD i []) := by
  rw [List.getD_eq_getElem?_getD, List.getD_eq_getElem?_getD, List.getElem?_map]
  rw [List.getElem?_eq_getElem hi]
  rfl

theorem chunksOf_ne_nil (b : Nat) (bs : List Nat) : chunksOf 544 (b :: bs) ≠ [] := by
  rw [chunksOf_cons 544 (by omega)]
  simp

theorem dataParameters_some (hash : List Nat → List Nat) (data : List Nat) (hne : data ≠ []) :
    ∃ r, dataParameters hash data = some { merkleRoot := r, size := data.length } := by
  have hne2 : (chunksOf 544 data).map hash ≠ [] := by
    cases data with
    | nil => exact absurd rfl hne
    | cons b bs =>
      intro hmap
      exact chunksOf_ne_nil b bs (List.map_eq_nil_iff.mp hmap)
  obtain ⟨r, hr⟩ := uncommittedRoot_isSome hash ((chunksOf 544 data).map hash).length _
    (Nat.le_refl _) hne2
  refine ⟨r, ?_⟩
  rw [dataParameters, appendData_new, root_zeroState, hr]
  rfl

/-- C3: Merkle round-trip. For every byte string `data` and every
`leaf_index < ceil(|data|/544)`: `parameters` succeeds and returns some root
`r` with size `|data|`; the data store's `proof` succeeds and returns the
block of `data` at `leaf_index` together with a proof; and `verify` on that
block, proof, root and total size `|data|` returns `true`. -/
theorem merkle_roundtrip_c3 (data : List Nat) (leafIndex : Nat)
    (hi : leafIndex < totalLeavesCount data.length) :
    ∃ (r blockData : List Nat) (prf : List (List Nat)),
      dataParameters keccak256 data = some { merkleRoot := r, size := data.length } ∧
      dataProofOp keccak256 data leafIndex = .ok (blockData, prf) ∧
      cryptographyVerify keccak256 leafIndex blockData prf r data.length = true := by
  have hdata : data ≠ [] := by
    intro hd
    subst hd
    simp [totalLeavesCount, BLOCK_SIZE_BYTES] at hi
  have hchunks : (chunksOf 544 data).length = totalLeavesCount data.length := chunksOf_length data
  have hlenL : ((chunksOf 544 data).map keccak256).length = totalLeavesCount data.length := by
    rw [List.length_map, hchunks]
  obtain ⟨r, hr⟩ := uncommittedRoot_isSome keccak256 ((chunksOf 544 data).map keccak256).length _
    (Nat.le_refl _)
    (by
      intro h0
      rw [h0] at hlenL
      simp only [List.length_nil] at hlenL
      omega)
  have hbound : ¬ (data.length < leafIndex * BLOCK_SIZE_BYTES) := by
    simp only [totalLeavesCount, BLOCK_SIZE_BYTES] at hi ⊢
    split_ifs at hi <;> omega
  refine ⟨r, (data.drop (leafIndex * 544)).take 544,
    proofFromLayers leafIndex (commitLayers keccak256 ((chunksOf 544 data).map keccak256)),
    ?_, ?_, ?_⟩
  · rw [dataParameters, appendData_new, root_zeroState, hr]
    rfl
  · rw [dataProofOp]
    simp only []
    rw [if_neg hbound]
    rw [appendData_new, proof_zeroState]
    have hblock : (data.drop (leafIndex * BLOCK_SIZE_BYTES)).take
        (min (leafIndex * BLOCK_SIZE_BYTES + BLOCK_SIZE_BYTES) data.length
          - leafIndex * BLOCK_SIZE_BYTES) =
        (data.drop (leafIndex * 544)).take 544 := by
      simp only [BLOCK_SIZE_BYTES]
      rcases Nat.le_total (leafIndex * 544 + 544) data.length with hc | hc
      · rw [Nat.min_eq_left hc]
        congr 1
        omega
      · rw [Nat.min_eq_right hc]
        have hd1 : (data.drop (leafIndex * 544)).length ≤ data.length - leafIndex * 544 := by
          rw [List.length_drop]
        have hd2 : (data.drop (leafIndex * 544)).length ≤ 544 := by
          rw [List.length_drop]
          omega
        rw [List.take_of_length_le hd1, List.take_of_length_le hd2]
    rw [hblock]
  · have hiL : leafIndex < ((chunksOf 544 data).map keccak256).length := by
      rw [hlenL]
      exact hi
    have hrt := verify_roundtrip_layers keccak256 ((chunksOf 544 data).map keccak256).length
      ((chunksOf 544 data).map keccak256) leafIndex (Nat.le_refl _) hiL
    have hleaf : ((chunksOf 544 data).map keccak256).getD leafIndex [] =
        keccak256 ((data.drop (leafIndex * 544)).take 544) := by
      rw [getD_map_hash keccak256 _ _ (by rw [hchunks]; exact hi)]
      rw [chunksOf_getD data leafIndex (by rw [hchunks]; exact hi)]
    rw [cryptographyVerify, decide_eq_true_eq]
    rw [← hlenL, ← hleaf, hrt, hr]

/-- Witness for C3 at the one-byte input `[7]` and leaf index 0. -/
theorem merkle_roundtrip_c3_witness :
    0 < totalLeavesCount ([7] : List Nat).length ∧
    (∃ (r blockData : List Nat) (prf : List (List Nat)),
      dataParameters keccak256 [7] = some { merkleRoot := r, size := ([7] : List Nat).length } ∧
      dataProofOp keccak256 [7] 0 = .ok (blockData, prf) ∧
      cryptographyVerify keccak256 0 blockData prf r ([7] : List Nat).length = true) :=
  ⟨by decide, merkle_roundtrip_c3 [7] 0 (by decide)⟩

/-! ## Store lemmas -/

theorem storeLookup_write (s : DataStore) (k : Nat × Nat) (v : List Nat) :
    storeLookup (storeWrite s k v) k = some v := by
  induction s with
  | nil => simp [storeWrite, storeLookup]
  | cons e rest ih =>
    by_cases he : e.1 = k
    · simp [storeWrite, he, storeLookup]
    · simp only [storeWrite, if_neg he]
      rw [storeLookup, List.find?_cons_of_neg _ (by simpa using he), ← storeLookup]
      exact ih

/-! ## Claim theorems for the lessor, reactor and Merkle tree -/

/-- C1: the claim prescribes the rate `price * 3600 * 2^30 / (duration_secs
* size)` for check 5 and rejection with `PriceRateTooSmall` exactly when that
rate is below `min_tokens_per_gb_hour`. The code instead computes
`((price * 3600 * 2^30) / duration_secs) * size` (the division binds before
the final multiplication). At the input below the claimed rate is 0, below
the minimum of 1, yet the policy passes the proposal on to the penalty
check instead of rejecting it. -/
theorem lessor_rate_formula_c1 :
    lessorProposal [(5, askC1)] termsC1 (2 ^ 31) = LessorOutcome.toPenaltyCheck ∧
    specPricePerGbHour termsC1.price termsC1.leaseDuration.secs (2 ^ 31) <
      askC1.minTokensGbHour := by
  constructor
  · decide
  · decide

/-- Counterexample to C2: a proposal whose `(peer, nonce)` pair is already
stored is not rejected — the store succeeds end to end and the previously
stored blob `[7]` is replaced by the incoming payload `[8]`. -/
theorem nonce_collision_c2_cex :
    processProposalReceived keccak256 (.ok ()) (some 9) (.ok 0) [((1, 5), [7])] 1 propC2 =
      some (.ok 0, [((1, 5), [8])]) ∧
    storeLookup [((1, 5), [7])] (1, 5) = some [7] ∧
    storeLookup [((1, 5), [8])] (1, 5) = some [8] :=
  ⟨rfl, rfl, rfl⟩

/-- C2 (amended): when a policy-accepted proposal arrives for a `(peer,
nonce)` pair — stored already or not — processing performs no duplicate
check (`reactor.rs` carries a `TODO check if the nonce is duplicated`);
`store` never fails on a collision, and afterwards the blob under `(peer,
nonce)` is the incoming payload, overwriting any previous one. -/
theorem nonce_collision_c2 (hash : List Nat → List Nat) (store : DataStore) (peerId : Nat)
    (prop : LeaseProposal) (lesseeAddr : Nat) (sealResult : Except Unit Nat)
    (hne : prop.data ≠ []) :
    ∃ res store2,
      processProposalReceived hash (.ok ()) (some lesseeAddr) sealResult store peerId prop =
        some (res, store2) ∧
      storeLookup store2 (peerId, prop.nonce) = some prop.data := by
  obtain ⟨r, hr⟩ := dataParameters_some hash prop.data hne
  have hstore : dataStoreOp hash store peerId prop.nonce prop.data =
      some ({ merkleRoot := r, size := prop.data.length },
        storeWrite store (peerId, prop.nonce) prop.data) := by
    rw [dataStoreOp, hr]
    rfl
  cases sealResult with
  | error e =>
    refine ⟨.error .onchainError, storeWrite store (peerId, prop.nonce) prop.data, ?_,
      storeLookup_write _ _ _⟩
    simp only [processProposalReceived]
    rw [hstore]
  | ok tx =>
    refine ⟨.ok tx, storeWrite store (peerId, prop.nonce) prop.data, ?_,
      storeLookup_write _ _ _⟩
    simp only [processProposalReceived]
    rw [hstore]

/-- Witness for C2 (amended) at the stored blob `[7]` and incoming `[8]`. -/
theorem nonce_collision_c2_witness :
    (propC2.data ≠ []) ∧
    (∃ res store2,
      processProposalReceived keccak256 (.ok ()) (some 9) (.ok 0) [((1, 5), [7])] 1 propC2 =
        some (res, store2) ∧
      storeLookup store2 (1, propC2.nonce) = some propC2.data) :=
  ⟨by decide, nonce_collision_c2 keccak256 [((1, 5), [7])] 1 propC2 9 (.ok 0) (by decide)⟩

set_option maxRecDepth 40000 in
/-- C4: `append_data` does not accumulate partial blocks across calls —
`current_bytes` is never updated, so every call flushes its own bytes as
leaves immediately. Appending one byte twice yields a two-leaf tree, while
appending the same two bytes in one call yields one leaf, and the resulting
roots differ; the root therefore depends on the chunking, not only on the
concatenation of the appended bytes. -/
theorem append_chunking_c4 :
    (RsMerkleTree.appendData keccak256
        (RsMerkleTree.appendData keccak256 newMerkleTree [97]) [98]).leaves.length = 2 ∧
    (RsMerkleTree.appendData keccak256 newMerkleTree [97, 98]).leaves.length = 1 ∧
    RsMerkleTree.root keccak256
        (RsMerkleTree.appendData keccak256 (RsMerkleTree.appendData keccak256 newMerkleTree [97]) [98]) ≠
      RsMerkleTree.root keccak256 (RsMerkleTree.appendData keccak256 newMerkleTree [97, 98]) := by
  refine ⟨rfl, rfl, by decide⟩

/-- Counterexample to C5: after a policy-accepted proposal is stored, a
failing `seal_lease` submission surfaces an on-chain error but the stored
blob `[9]` is NOT deleted — it is still in the data store afterwards. -/
theorem seal_failure_no_rollback_c5_cex :
    processProposalReceived keccak256 (.ok ()) (some 9) (.error ()) [] 1 propC5 =
      some (.error .onchainError, [((1, 6), [9])]) :=
  rfl

/-- C5 (amended): when `seal_lease` fails after the blob has been stored, the
error is surfaced (`?` propagation) but no rollback happens: the blob stays
in the data store. -/
theorem seal_failure_no_rollback_c5 (hash : List Nat → List Nat) (store : DataStore)
    (peerId : Nat) (prop : LeaseProposal) (lesseeAddr : Nat) (hne : prop.data ≠ []) :
    ∃ store2,
      processProposalReceived hash (.ok ()) (some lesseeAddr) (.error ()) store peerId prop =
        some (.error .onchainError, store2) ∧
      storeLookup store2 (peerId, prop.nonce) = some prop.data := by
  obtain ⟨r, hr⟩ := dataParameters_some hash prop.data hne
  have hstore : dataStoreOp hash store peerId prop.nonce prop.data =
      some ({ merkleRoot := r, size := prop.data.length },
        storeWrite store (peerId, prop.nonce) prop.data) := by
    rw [dataStoreOp, hr]
    rfl
  refine ⟨storeWrite store (peerId, prop.nonce) prop.data, ?_, storeLookup_write _ _ _⟩
  simp only [processProposalReceived]
  rw [hstore]

/-- Witness for C5 (amended) at the one-byte payload `[9]`. -/
theorem seal_failure_no_rollback_c5_witness :
    (propC5.data ≠ []) ∧
    (∃ store2,
      processProposalReceived keccak256 (.ok ()) (some 9) (.error ()) [] 1 propC5 =
        some (.error .onchainError, store2) ∧
      storeLookup store2 (1, propC5.nonce) = some propC5.data) :=
  ⟨by decide, seal_failure_no_rollback_c5 keccak256 [] 1 propC5 9 (by decide)⟩

/-- Counterexample to C6: at the boundary `block_number * 544 = size` (a
stored lease of exactly one 544-byte block, challenged at block 1) the
operator challenge gate proceeds instead of failing, and the data store's
`proof` returns `Ok` instead of failing, although
`block_number ≥ ceil(len/544)`. -/
theorem challenge_bound_equality_c6_cex :
    reactorChallengeGate persC6 1 { nonce := 5, blockNumber := 1 } = ChallengeGate.proceeds ∧
    leaseC6.dataParameters.size ≤ 1 * BLOCK_SIZE_BYTES ∧
    (∃ v, dataProofOp keccak256 (List.replicate 544 7) 1 = Except.ok v) ∧
    totalLeavesCount (List.replicate 544 7).length ≤ 1 := by
  have hb : ¬ (List.replicate 544 7).length < 1 * BLOCK_SIZE_BYTES := by
    rw [List.length_replicate]
    decide
  refine ⟨rfl, by decide, ?_, ?_⟩
  · apply Exists.intro
    simp only [dataProofOp]
    rw [if_neg hb]
  · rw [List.length_replicate]
    decide

/-- C6 (amended): with the lease present, the challenge command's bound
check fails exactly when `block_number * 544 > size` (strictly greater — at
equality it proceeds), and the data store's `proof` fails its bound check
exactly when `block_number * 544 > file length`. -/
theorem challenge_bound_strict_c6 (pers : Persistence) (peerId : Nat) (key : ChallengeKey)
    (lease : Lease) (hlease : rentGet pers peerId key.nonce = some lease) :
    (reactorChallengeGate pers peerId key = .failedOutOfBounds ↔
      lease.dataParameters.size < key.blockNumber * BLOCK_SIZE_BYTES) ∧
    ∀ (fileData : List Nat) (blockNumber : Nat),
      (dataProofOp keccak256 fileData blockNumber = .error "block is out of bounds" ↔
        fileData.length < blockNumber * BLOCK_SIZE_BYTES) := by
  constructor
  · rw [reactorChallengeGate, hlease]
    by_cases hb : lease.dataParameters.size < key.blockNumber * BLOCK_SIZE_BYTES
    · simp [hb]
    · simp [hb]
  · intro fileData blockNumber
    rw [dataProofOp]
    by_cases hb : fileData.length < blockNumber * BLOCK_SIZE_BYTES
    · simp [hb]
    · simp [hb]

/-- Witness for C6 (amended) at `persC6` and block number 2. -/
theorem challenge_bound_strict_c6_witness :
    (rentGet persC6 1 (ChallengeKey.mk 5 2).nonce = some leaseC6) ∧
    ((reactorChallengeGate persC6 1 (ChallengeKey.mk 5 2) = .failedOutOfBounds ↔
      leaseC6.dataParameters.size < (ChallengeKey.mk 5 2).blockNumber * BLOCK_SIZE_BYTES) ∧
    ∀ (fileData : List Nat) (blockNumber : Nat),
      (dataProofOp keccak256 fileData blockNumber = .error "block is out of bounds" ↔
        fileData.length < blockNumber * BLOCK_SIZE_BYTES)) :=
  ⟨rfl, challenge_bound_strict_c6 persC6 1 (ChallengeKey.mk 5 2) leaseC6 rfl⟩

/-- C7: the claim states that with no data appended, `root()` succeeds and
returns the Keccak-256 of the empty byte string. In the code, no leaf is
ever inserted for empty input, `rs_merkle`'s `uncommitted_root()` returns
`None` on the empty tree, and the `.expect("error geting merkle root")`
panics — `root` does not return a value at all. -/
theorem empty_root_panics_c7 :
    RsMerkleTree.root keccak256 (RsMerkleTree.appendData keccak256 newMerkleTree []) = none :=
  rfl

/-! ## Persistence lemmas -/

theorem lookupLease_cons (e : PersistKey × Lease) (rest : Persistence) (k : PersistKey) :
    lookupLease (e :: rest) k = if e.1 = k then some e.2 else lookupLease rest k := by
  by_cases he : e.1 = k
  · rw [if_pos he, lookupLease, List.find?_cons_of_pos _ (by simpa using he)]
    rfl
  · rw [if_neg he, lookupLease, List.find?_cons_of_neg _ (by simpa using he)]
    rfl

theorem lookupLease_insert_self (p : Persistence) (k : PersistKey) (v : Lease) :
    lookupLease (insertLease p k v) k = some v := by
  induction p with
  | nil => simp [insertLease, lookupLease_cons]
  | cons e rest ih =>
    by_cases he : e.1 = k
    · simp [insertLease, he, lookupLease_cons]
    · simp only [insertLease, if_neg he]
      rw [lookupLease_cons, if_neg he]
      exact ih

theorem lookupLease_insert_ne (p : Persistence) (k k2 : PersistKey) (v : Lease)
    (hne : k2 ≠ k) :
    lookupLease (insertLease p k v) k2 = lookupLease p k2 := by
  induction p with
  | nil =>
    rw [insertLease, lookupLease_cons, if_neg (fun h => hne h.symm)]
  | cons e rest ih =>
    by_cases he : e.1 = k
    · simp only [insertLease, if_pos he]
      rw [lookupLease_cons, lookupLease_cons]
      rw [if_neg (fun h => hne h.symm), if_neg (by rw [he]; exact fun h => hne h.symm)]
    · simp only [insertLease, if_neg he]
      rw [lookupLease_cons, lookupLease_cons]
      by_cases he2 : e.1 = k2
      · rw [if_pos he2, if_pos he2]
      · rw [if_neg he2, if_neg he2]
        exact ih

theorem insertLease_insert_same (p : Persistence) (k : PersistKey) (v : Lease) :
    insertLease (insertLease p k v) k v = insertLease p k v := by
  induction p with
  | nil => simp [insertLease]
  | cons e rest ih =>
    by_cases he : e.1 = k
    · simp [insertLease, he]
    · have step : insertLease (e :: rest) k v = e :: insertLease rest k v := by
        rw [insertLease, if_neg he]
      rw [step, insertLease, if_neg he, ih]

theorem lookup_of_mem_nodup (p : Persistence) (k : PersistKey) (v : Lease)
    (hnodup : (p.map (fun e => e.1)).Nodup) (hmem : (k, v) ∈ p) :
    lookupLease p k = some v := by
  induction p with
  | nil => simp at hmem
  | cons e rest ih =>
    rw [List.map_cons, List.nodup_cons] at hnodup
    rcases List.mem_cons.mp hmem with heq | hmem2
    · rw [← heq, lookupLease_cons, if_pos rfl]
    · have hk : e.1 ≠ k := by
        intro h
        apply hnodup.1
        rw [h]
        exact List.mem_map.mpr ⟨(k, v), hmem2, rfl⟩
      rw [lookupLease_cons, if_neg hk]
      exact ih hnodup.2 hmem2

theorem rentUpdate_find_unique (peerAddress nonce : Nat) (cc : Option ChainConfirmation) :
    ∀ (p : Persistence), (p.map (fun e => e.1)).Nodup →
      countMatches p peerAddress nonce = 1 →
      ∃ k0 l0,
        p.find? (leaseMatches peerAddress nonce) = some (k0, l0) ∧
        (insertLease p k0 { l0 with chainConfirmation := cc }).find?
            (leaseMatches peerAddress nonce) =
          some (k0, { l0 with chainConfirmation := cc }) := by
  intro p
  induction p with
  | nil =>
    intro _ h1
    simp [countMatches] at h1
  | cons e rest ih =>
    intro hnodup h1
    rw [List.map_cons, List.nodup_cons] at hnodup
    by_cases hm : leaseMatches peerAddress nonce e = true
    · refine ⟨e.1, e.2, ?_, ?_⟩
      · rw [List.find?_cons_of_pos _ hm]
      · simp only [insertLease, if_pos rfl]
        exact List.find?_cons_of_pos _ hm
    · have h1r : countMatches rest peerAddress nonce = 1 := by
        rw [countMatches, List.filter_cons_of_neg hm] at h1
        exact h1
      obtain ⟨k0, l0, hA, hG⟩ := ih hnodup.2 h1r
      have hk0mem : k0 ∈ rest.map (fun e => e.1) :=
        List.mem_map.mpr ⟨(k0, l0), List.mem_of_find?_eq_some hA, rfl⟩
      have hek0 : e.1 ≠ k0 := by
        intro h
        exact hnodup.1 (h ▸ hk0mem)
      refine ⟨k0, l0, ?_, ?_⟩
      · rw [List.find?_cons_of_neg _ hm, hA]
      · simp only [insertLease, if_neg hek0]
        rw [List.find?_cons_of_neg _ hm, hG]

/-- C8: `rent_update_chain(peer_address, nonce, confirmation)` on a key-unique
store: with exactly one matching lease it returns `Ok` and the new state has
only that lease's `chain_confirmation` field changed (same key, all other
fields and all other entries untouched); with no matching lease it returns
`LeaseNotFound` (and produces no new state); and applying the same update to
the updated state returns the updated state unchanged (idempotence). -/
theorem rent_update_chain_c8 (p : Persistence) (peerAddress nonce : Nat)
    (cc : Option ChainConfirmation) (hkeys : (p.map (fun e => e.1)).Nodup) :
    (countMatches p peerAddress nonce = 0 →
      rentUpdateChain p peerAddress nonce cc = .error .leaseNotFound) ∧
    (countMatches p peerAddress nonce = 1 →
      ∃ k0 l0 p2,
        lookupLease p k0 = some l0 ∧
        l0.peerAddress = peerAddress ∧
        l0.nonce = nonce ∧
        rentUpdateChain p peerAddress nonce cc = .ok p2 ∧
        lookupLease p2 k0 = some { l0 with chainConfirmation := cc } ∧
        (∀ k, k ≠ k0 → lookupLease p2 k = lookupLease p k) ∧
        rentUpdateChain p2 peerAddress nonce cc = .ok p2) := by
  constructor
  · intro h0
    have hfil : p.filter (leaseMatches peerAddress nonce) = [] := by
      rw [countMatches] at h0
      exact List.length_eq_zero.mp h0
    have hnone : p.find? (leaseMatches peerAddress nonce) = none := by
      rw [List.find?_eq_none]
      intro x hx
      exact (List.filter_eq_nil_iff.mp hfil) x hx
    rw [rentUpdateChain, hnone]
  · intro h1
    obtain ⟨k0, l0, hA, hG⟩ := rentUpdate_find_unique peerAddress nonce cc p hkeys h1
    have hmem := List.mem_of_find?_eq_some hA
    have hmatch := List.find?_some hA
    simp only [leaseMatches, Bool.and_eq_true, beq_iff_eq] at hmatch
    refine ⟨k0, l0, insertLease p k0 { l0 with chainConfirmation := cc },
      lookup_of_mem_nodup p k0 l0 hkeys hmem, hmatch.1, hmatch.2, ?_,
      lookupLease_insert_self _ _ _,
      fun k hk => lookupLease_insert_ne p k0 k _ hk, ?_⟩
    · rw [rentUpdateChain, hA]
    · rw [rentUpdateChain, hG]
      show Except.ok (insertLease (insertLease p k0 { l0 with chainConfirmation := cc }) k0
        { l0 with chainConfirmation := cc }) = _
      rw [insertLease_insert_same]

/-- Witness for C8 at a one-lease store, setting a confirmation. -/
theorem rent_update_chain_c8_witness :
    ((persC8.map (fun e => e.1)).Nodup) ∧
    ((countMatches persC8 11 4 = 0 →
      rentUpdateChain persC8 11 4 (some { transactionHash := 99, timestamp := 123 }) =
        .error .leaseNotFound) ∧
    (countMatches persC8 11 4 = 1 →
      ∃ k0 l0 p2,
        lookupLease persC8 k0 = some l0 ∧
        l0.peerAddress = 11 ∧
        l0.nonce = 4 ∧
        rentUpdateChain persC8 11 4 (some { transactionHash := 99, timestamp := 123 }) =
          .ok p2 ∧
        lookupLease p2 k0 =
          some { l0 with chainConfirmation := some { transactionHash := 99, timestamp := 123 } } ∧
        (∀ k, k ≠ k0 → lookupLease p2 k = lookupLease persC8 k) ∧
        rentUpdateChain p2 11 4 (some { transactionHash := 99, timestamp := 123 }) = .ok p2)) :=
  ⟨by decide,
    rent_update_chain_c8 persC8 11 4 (some { transactionHash := 99, timestamp := 123 })
      (by decide)⟩

/-- C9: in each of the three request/response helpers of `p2p/mod.rs` —
`challenge`, `retrieve`, and `send_proposal` awaiting a rejection — the
one-shot listener for the response key is registered strictly before the
request message is handed to the transport, so along each trace every
response-expecting send is preceded by a matching listener registration. -/
theorem listener_before_send_c9 (peerId nonce : Nat) (key : ChallengeKey)
    (prop : LeaseProposal) :
    listenersPrecedeSends (p2pChallengeActions peerId key) ∧
    listenersPrecedeSends (p2pRetrieveActions peerId nonce) ∧
    listenersPrecedeSends (p2pSendProposalActions peerId prop) := by
  refine ⟨?_, ?_, ?_⟩ <;>
    simp [listenersPrecedeSends, listenersPrecedeSendsFrom, p2pChallengeActions,
      p2pRetrieveActions, p2pSendProposalActions, expectsResponse]

/-- C10: `Signature::serialize` always produces exactly 65 bytes (`r`, `s`,
then `v` truncated to one byte); `deserialize` succeeds exactly on 65-byte
inputs; and for `v < 256` deserializing the serialization returns the same
`r`, `s` and `v`. -/
theorem signature_serialize_roundtrip_c10 (sig : Signature) (hr : sig.r.length = 32)
    (hs : sig.s.length = 32) :
    sig.serialize.length = 65 ∧
    (∀ buf : List Nat, (∃ sig2, Signature.deserialize buf = .ok sig2) ↔ buf.length = 65) ∧
    (sig.v < 256 → Signature.deserialize sig.serialize = .ok sig) := by
  obtain ⟨r, s, v⟩ := sig
  simp only [Signature.serialize] at *
  have hlen : (r ++ s ++ [v % 256]).length = 65 := by
    simp [List.length_append, hr, hs]
  refine ⟨hlen, ?_, ?_⟩
  · intro buf
    constructor
    · rintro ⟨sig2, hsig2⟩
      rw [Signature.deserialize] at hsig2
      by_cases hb : buf.length = 65
      · exact hb
      · rw [if_pos hb] at hsig2
        exact absurd hsig2 (by simp)
    · intro hb
      refine ⟨{ r := buf.take 32, s := (buf.drop 32).take 32, v := buf.getD 64 0 }, ?_⟩
      rw [Signature.deserialize, if_neg (by rw [hb]; exact fun h => h rfl)]
  · intro hv
    rw [Signature.deserialize, if_neg (by rw [hlen]; exact fun h => h rfl)]
    have h1 : (r ++ s ++ [v % 256]).take 32 = r := by
      rw [List.append_assoc, List.take_left' hr]
    have h2 : ((r ++ s ++ [v % 256]).drop 32).take 32 = s := by
      rw [List.append_assoc, List.drop_left' hr, List.take_left' hs]
    have h3 : (r ++ s ++ [v % 256]).getD 64 0 = v := by
      rw [List.getD_eq_getElem?_getD, List.getElem?_append_right (by simp [hr, hs])]
      simp [hr, hs, Nat.mod_eq_of_lt hv]
    rw [h1, h2, h3]

/-- Witness for C10 at a concrete signature with `v = 27`. -/
theorem signature_serialize_roundtrip_c10_witness :
    (sigC10.r.length = 32 ∧ sigC10.s.length = 32) ∧
    (sigC10.serialize.length = 65 ∧
    (∀ buf : List Nat, (∃ sig2, Signature.deserialize buf = .ok sig2) ↔ buf.length = 65) ∧
    (sigC10.v < 256 → Signature.deserialize sigC10.serialize = .ok sigC10)) :=
  ⟨⟨by decide, by decide⟩,
    signature_serialize_roundtrip_c10 sigC10 (by decide) (by decide)⟩

set_option maxRecDepth 40000 in
/-- Validation of the Keccak-256 implementation: the digest of the empty
byte string is the standard value
`c5d2460186f7233c927e7db2dcc703c0e500b653ca82273b7bfad8045d85a470`. -/
theorem keccak256_empty_string :
    keccak256 [] =
    [0xc5, 0xd2, 0x46, 0x01, 0x86, 0xf7, 0x23, 0x3c, 0x92, 0x7e, 0x7d, 0xb2, 0xdc, 0xc7, 0x03, 0xc0,
     0xe5, 0x00, 0xb6, 0x53, 0xca, 0x82, 0x27, 0x3b, 0x7b, 0xfa, 0xd8, 0x04, 0x5d, 0x85, 0xa4, 0x70] := by
  decide

end P2pim
